import Mathlib

/-
Verification of the bounded persisted-log subsystem and the positional
text-correction algorithm of VeloxMind Studio.

The Python sources are shallowly embedded:
  history_manager.py      -> Entry, mkEntry, to_dict, from_dict, add_entry,
                             get_history, delete_entry, clear_history,
                             import_history, search_history, save_history,
                             load_history
  promptcraft_studio.py   -> conversation memory (ConvState, save_conversation,
                             add_to_conversation), apply_corrections,
                             find_spelling_errors, get_word_context

Strings are modelled by Lean String (sequences of characters, compared
lexicographically by code point, as Python compares str values); string
slicing is modelled on List Char with take and drop, which clamp exactly as
Python slices do. Case folding and the word-character test are modelled at
ASCII granularity. The process clock (datetime.now().isoformat()) is passed
in explicitly as a now argument. File I/O is modelled by values: a written
file is the structured data that json.dump would serialize, and a read file
is either absent, unreadable or malformed, or parsed data.
-/

namespace VMS

/-- Python str.lower, modelled on a list of characters (ASCII case folding). -/
def pyLower (s : String) : List Char := s.data.map Char.toLower

/-- startsWith n h is true when n is an initial segment of h. -/
def startsWith : List Char → List Char → Bool
  | [], _ => true
  | _ :: _, [] => false
  | a :: as, b :: bs => a = b && startsWith as bs

/-- Python substring membership, the in operator on strings. -/
def hasSub (needle : List Char) : List Char → Bool
  | [] => needle.isEmpty
  | c :: t => startsWith needle (c :: t) || hasSub needle t

/-- PromptHistoryEntry from history_manager.py: the four persisted fields. -/
structure Entry where
  user_input : String
  generated_prompt : String
  template_id : String
  timestamp : String
deriving DecidableEq, Repr

/-- PromptHistoryEntry.__init__: the expression (timestamp or
datetime.now().isoformat()) replaces a None or empty timestamp with the
current clock value, passed here as the now argument. -/
def mkEntry (ui gp tid : String) (ts : Option String) (now : String) : Entry :=
  { user_input := ui, generated_prompt := gp, template_id := tid,
    timestamp := match ts with
      | none => now
      | some t => if t = "" then now else t }

/-- The JSON dictionary shape produced by to_dict and consumed by from_dict;
optional fields model keys that may be missing from a loaded file. -/
structure EntryDict where
  user_input : Option String
  generated_prompt : Option String
  template_id : Option String
  timestamp : Option String
deriving DecidableEq, Repr

/-- PromptHistoryEntry.to_dict: every field is written. -/
def to_dict (e : Entry) : EntryDict :=
  { user_input := some e.user_input, generated_prompt := some e.generated_prompt,
    template_id := some e.template_id, timestamp := some e.timestamp }

/-- PromptHistoryEntry.from_dict: data.get with the defaults of the source,
then the constructor, which substitutes now for a missing or empty timestamp. -/
def from_dict (d : EntryDict) (now : String) : Entry :=
  mkEntry (d.user_input.getD "") (d.generated_prompt.getD "")
    (d.template_id.getD "context_aware") d.timestamp now

/-- HistoryManager.max_history, set in __init__. -/
def maxHistory : Nat := 100

/-- HistoryManager.add_entry: insert the new entry at index 0, trim to
maxHistory when the list grew beyond it. -/
def add_entry (ui gp tid now : String) (history : List Entry) : List Entry :=
  let h := mkEntry ui gp tid none now :: history
  if maxHistory < h.length then h.take maxHistory else h

/-- Python slicing xs[:l], including the negative-bound form. -/
def pySliceTo (l : Int) (xs : List Entry) : List Entry :=
  if 0 ≤ l then xs.take l.toNat else xs.take (xs.length - (-l).toNat)

/-- HistoryManager.get_history: the guard (if limit:) is false for both None
and 0, so both return the whole list. -/
def get_history (limit : Option Int) (history : List Entry) : List Entry :=
  match limit with
  | none => history
  | some l => if l = 0 then history else pySliceTo l history

/-- HistoryManager.clear_history sets the list to []. -/
def clear_history : List Entry := []

/-- HistoryManager.delete_entry: delete at index when 0 <= index < len,
otherwise leave the list unchanged. -/
def delete_entry (i : Int) (history : List Entry) : List Entry :=
  if 0 ≤ i ∧ i < (history.length : Int) then history.eraseIdx i.toNat else history

/-- The timestamp-descending comparison of import_history
(sort with key timestamp, reverse=True). -/
def tsGE (a b : Entry) : Prop := b.timestamp ≤ a.timestamp

instance : DecidableRel tsGE :=
  fun a b => inferInstanceAs (Decidable (b.timestamp ≤ a.timestamp))

instance : IsTotal Entry tsGE := ⟨fun a b => le_total b.timestamp a.timestamp⟩

instance : IsTrans Entry tsGE := ⟨fun _ _ _ hab hbc => le_trans hbc hab⟩

/-- Python list.sort(key=timestamp, reverse=True): a stable descending sort.
Insertion sort with a non-strict total relation is stable, hence it produces
the same list as the stable sort of the source. -/
def sortByTimestampDesc (l : List Entry) : List Entry := List.insertionSort tsGE l

/-- HistoryManager.import_history on already-parsed entries: with merge the
existing list is extended, resorted by timestamp descending and trimmed; with
merge false the list is replaced outright by the imported entries. -/
def import_history (imported : List Entry) (merge : Bool) (history : List Entry) :
    List Entry :=
  if merge then
    let m := sortByTimestampDesc (history ++ imported)
    if maxHistory < m.length then m.take maxHistory else m
  else imported

/-- HistoryManager.search_history: case-insensitive substring filter over both
user_input and generated_prompt. -/
def search_history (q : String) (history : List Entry) : List Entry :=
  history.filter fun e =>
    hasSub (pyLower q) (pyLower e.user_input) || hasSub (pyLower q) (pyLower e.generated_prompt)

/-- The JSON object written by save_history; the history key may be absent in
a hand-made file, so it is optional here and read back with a [] default. -/
structure HistoryFileData where
  version : String
  history : Option (List EntryDict)
deriving DecidableEq, Repr

/-- HistoryManager.save_history: the serialized object. -/
def save_history (history : List Entry) : HistoryFileData :=
  { version := "1.0", history := some (history.map to_dict) }

/-- HistoryManager.load_history. The file argument is none when the file does
not exist, some none when it exists but reading or JSON parsing raises, and
some (some d) on success. A missing file keeps the current list; a read or
parse error is caught and the history becomes the empty list. -/
def load_history (file : Option (Option HistoryFileData)) (current : List Entry)
    (now : String) : List Entry :=
  match file with
  | none => current
  | some none => []
  | some (some d) => (d.history.getD []).map (fun x => from_dict x now)

/-- The arguments of one add_entry call, together with the clock value at
that call. -/
structure AddCall where
  user_input : String
  generated_prompt : String
  template_id : String
  now : String
deriving DecidableEq, Repr

/-- The entry that an add_entry call constructs. -/
def entryOf (c : AddCall) : Entry :=
  mkEntry c.user_input c.generated_prompt c.template_id none c.now

/-- A sequence of add_entry calls applied in order. -/
def applyAdds (calls : List AddCall) (h : List Entry) : List Entry :=
  calls.foldl (fun t c => add_entry c.user_input c.generated_prompt c.template_id c.now t) h

/-- A conversation message, the dict with role and content keys. -/
structure Msg where
  role : String
  content : String
deriving DecidableEq, Repr

/-- AIPromptGenerator.max_conversation_turns, set in __init__. -/
def maxConversationTurns : Nat := 50

/-- The JSON object written by save_conversation. -/
structure ConvFile where
  version : String
  last_updated : String
  messages : List Msg
deriving DecidableEq, Repr

/-- The in-memory conversation list together with what was last written to
disk (none when nothing has been written yet). -/
structure ConvState where
  history : List Msg
  disk : Option ConvFile
deriving DecidableEq, Repr

/-- The save-time trim: when the list exceeds max_conversation_turns * 2, keep
only the trailing slice (the Python slice with bound -(max*2)). -/
def convTrim (l : List Msg) : List Msg :=
  if maxConversationTurns * 2 < l.length then
    l.drop (l.length - maxConversationTurns * 2)
  else l

/-- AIPromptGenerator.save_conversation: trim the in-memory list, then write
the whole file. -/
def save_conversation (now : String) (s : ConvState) : ConvState :=
  let h := convTrim s.history
  { history := h,
    disk := some { version := "1.0", last_updated := now, messages := h } }

/-- AIPromptGenerator.add_to_conversation: append the message, then save. -/
def add_to_conversation (role content now : String) (s : ConvState) : ConvState :=
  save_conversation now
    { s with history := s.history ++ [{ role := role, content := content }] }

/-- A sequence of add_to_conversation calls; each element carries the message
and the clock value at its save. -/
def appendAll (calls : List (Msg × String)) (s : ConvState) : ConvState :=
  calls.foldl (fun t mc => add_to_conversation mc.1.role mc.1.content mc.2 t) s

/-- One spelling correction: replace the span from start to stop (the
dictionary keys start and end in the source) with the replacement string. -/
structure Correction where
  start : Nat
  stop : Nat
  replacement : List Char
deriving DecidableEq, Repr

/-- One loop iteration of apply_corrections: the slicing
text[:start] + replacement + text[end:]. -/
def applyOne (text : List Char) (c : Correction) : List Char :=
  text.take c.start ++ c.replacement ++ text.drop c.stop

/-- The start-descending comparison of sorted(key=start, reverse=True). -/
def startGE (a b : Correction) : Prop := b.start ≤ a.start

instance : DecidableRel startGE := fun a b => Nat.decLe b.start a.start

instance : IsTotal Correction startGE := ⟨fun a b => Nat.le_total b.start a.start⟩

instance : IsTrans Correction startGE := ⟨fun _ _ _ hab hbc => Nat.le_trans hbc hab⟩

/-- Python sorted(corrections, key=start, reverse=True): a stable descending
sort, modelled by insertion sort with the non-strict descending relation. -/
def sortCorrections (cs : List Correction) : List Correction :=
  List.insertionSort startGE cs

/-- AIPromptGenerator.apply_corrections, the text transformation: sort the
corrections by start descending, then apply each by slicing. -/
def apply_corrections (text : List Char) (cs : List Correction) : List Char :=
  (sortCorrections cs).foldl applyOne text

/-- Stated from the specification's wording of the intended result: every span
is replaced, each replacement spliced between the untouched pieces of the
original text, the corrections being listed in ascending span order and pos
being the position up to which the text has already been emitted. -/
def specSplice (text : List Char) (pos : Nat) : List Correction → List Char
  | [] => text.drop pos
  | c :: rest =>
      (text.drop pos).take (c.start - pos) ++ c.replacement ++ specSplice text c.stop rest

/-- Ascending, pairwise non-overlapping, in-bounds corrections with nonempty
spans, the first starting at or after pos. -/
def ValidFrom (n : Nat) (pos : Nat) : List Correction → Prop
  | [] => True
  | c :: rest => pos ≤ c.start ∧ c.start < c.stop ∧ c.stop ≤ n ∧ ValidFrom n c.stop rest

/-- Two corrections touch disjoint spans. -/
def Disj (a b : Correction) : Prop := a.stop ≤ b.start ∨ b.stop ≤ a.start

instance : DecidableRel Disj :=
  fun a b => inferInstanceAs (Decidable (a.stop ≤ b.start ∨ b.stop ≤ a.start))

/-- The character class of the regex word pattern. -/
def isAsciiLetter (c : Char) : Bool := c.isAlpha

/-- A regex word character (ASCII granularity): letter, digit or underscore. -/
def isWordChar (c : Char) : Bool := c.isAlpha || c.isDigit || c = '_'

/-- The finditer loop over the word-boundary pattern: maximal ASCII-letter
runs whose neighbouring characters are not word characters, with their start
and stop positions. The prevIsWord flag records whether the character just
before the current position is a word character. The fuel argument only
bounds the number of loop steps (each step consumes at least one character,
so the remaining length is always enough fuel). -/
def scanAux : Nat → List Char → Nat → Bool → List (List Char × Nat × Nat)
  | 0, _, _, _ => []
  | _ + 1, [], _, _ => []
  | fuel + 1, c :: rest, pos, prevIsWord =>
    if isAsciiLetter c then
      let run := c :: rest.takeWhile isAsciiLetter
      let rest2 := rest.dropWhile isAsciiLetter
      let stop := pos + run.length
      let ok := !prevIsWord &&
        (match rest2 with | [] => true | d :: _ => !isWordChar d)
      (if ok then [(run, pos, stop)] else []) ++ scanAux fuel rest2 stop true
    else
      scanAux fuel rest (pos + 1) (isWordChar c)

/-- The word tokenizer: run the scan with enough fuel for the whole text. -/
def scanWords (l : List Char) (pos : Nat) (prevIsWord : Bool) :
    List (List Char × Nat × Nat) :=
  scanAux l.length l pos prevIsWord

/-- Lowercasing a single word, word.lower() in the membership test. -/
def lowerL (w : List Char) : List Char := w.map Char.toLower

/-- AIPromptGenerator.get_word_context: a window of up to 20 characters on
each side, with ellipsis markers when truncated inside the text. -/
def get_word_context (text : List Char) (s e : Nat) : List Char :=
  let cs := s - 20
  let ce := min (e + 20) text.length
  let ctx := (text.drop cs).take (ce - cs)
  (if 0 < cs then ['.', '.', '.'] else []) ++ ctx ++
    (if ce < text.length then ['.', '.', '.'] else [])

/-- One reported spelling error. -/
structure SpellError where
  word : List Char
  start : Nat
  stop : Nat
  suggestions : List (List Char)
  context : List Char
deriving DecidableEq, Repr

/-- AIPromptGenerator.find_spelling_errors, with the spell checker injected:
dict is the membership test applied to the lowercased word, and cand the
candidates function (an empty list models a None or empty candidate set, both
of which make the source skip the word). -/
def find_spelling_errors (dict : List Char → Bool) (cand : List Char → List (List Char))
    (text : List Char) : List SpellError :=
  (scanWords text 0 false).filterMap fun t =>
    if t.1.length ≤ 2 then none
    else if dict (lowerL t.1) then none
    else match cand t.1 with
      | [] => none
      | s :: rest =>
          some (SpellError.mk t.1 t.2.1 t.2.2 ((s :: rest).take 5)
            (get_word_context text t.2.1 t.2.2))

/-- A concrete entry used by witnesses and counterexamples. -/
def sampleEntry : Entry :=
  { user_input := "alpha", generated_prompt := "beta", template_id := "context_aware",
    timestamp := "2024-01-01T00:00:00" }

/-- A concrete conversation call used by witnesses. -/
def sampleCall : Msg × String := (Msg.mk "user" "hi", "t0")

theorem trim_length_le {α : Type} (l : List α) :
    (if maxHistory < l.length then l.take maxHistory else l).length ≤ maxHistory := by
  split
  · simp [List.length_take]
  · omega

theorem add_entry_eq (ui gp tid now : String) (h : List Entry) :
    add_entry ui gp tid now h =
      if maxHistory < (mkEntry ui gp tid none now :: h).length
      then (mkEntry ui gp tid none now :: h).take maxHistory
      else mkEntry ui gp tid none now :: h := rfl

theorem import_true_eq (h imp : List Entry) :
    import_history imp true h =
      if maxHistory < (sortByTimestampDesc (h ++ imp)).length
      then (sortByTimestampDesc (h ++ imp)).take maxHistory
      else sortByTimestampDesc (h ++ imp) := rfl

/-- C10: a history file that exists but is malformed or unreadable makes
load_history catch the error and set the in-memory history to the empty
list, whatever it held before; nothing is raised and no default-substituted
entries appear. -/
theorem C10_load_malformed (cur : List Entry) (now : String) :
    load_history (some none) cur now = [] := rfl

/-- C7 counterexample: get_history with limit 0 does not return the first 0
entries; the Python truthiness test treats 0 like None and the whole store is
returned. -/
theorem C7_counterexample :
    get_history (some 0) [sampleEntry] ≠ List.take 0 [sampleEntry] := by
  decide

/-- C7 amended: get_history returns the whole list when limit is absent or 0,
the first limit entries when limit is positive, and all but the last -limit
entries when limit is negative; being a pure function of the store it mutates
nothing and cannot throw. -/
theorem C7_get_history (h : List Entry) (l : Int) :
    get_history none h = h ∧ get_history (some 0) h = h ∧
    (0 < l → get_history (some l) h = h.take l.toNat) ∧
    (l < 0 → get_history (some l) h = h.take (h.length - (-l).toNat)) := by
  refine ⟨rfl, rfl, ?_, ?_⟩
  · intro hl
    have hne : l ≠ 0 := by omega
    simp [get_history, pySliceTo, hne, le_of_lt hl]
  · intro hl
    have hne : l ≠ 0 := by omega
    have hn : ¬ (0 ≤ l) := by omega
    simp [get_history, pySliceTo, hne, hn]

theorem C7_get_history_witness :
    get_history (some 1) [sampleEntry] = List.take (Int.toNat 1) [sampleEntry] :=
  (C7_get_history [sampleEntry] 1).2.2.1 (by norm_num)

/-- C8: search_history returns a sublist of the store (a subset in store
order), and an entry is returned only when the lowercased query occurs as a
substring of its lowercased user_input or generated_prompt; the function is
pure, so the store and its persistence are untouched. -/
theorem C8_search (q : String) (h : List Entry) :
    List.Sublist (search_history q h) h ∧
    ∀ e ∈ search_history q h,
      hasSub (pyLower q) (pyLower e.user_input) = true ∨
      hasSub (pyLower q) (pyLower e.generated_prompt) = true := by
  refine ⟨List.filter_sublist h, ?_⟩
  intro e he
  have hp := List.of_mem_filter he
  simpa [Bool.or_eq_true] using hp

theorem C8_search_witness :
    hasSub (pyLower "ALP") (pyLower sampleEntry.user_input) = true ∨
    hasSub (pyLower "ALP") (pyLower sampleEntry.generated_prompt) = true :=
  (C8_search "ALP" [sampleEntry]).2 sampleEntry (by decide)

theorem from_to_dict (e : Entry) (now : String) (h : e.timestamp ≠ "") :
    from_dict (to_dict e) now = e := by
  cases e with
  | mk a b c d =>
    simp only [Entry.timestamp] at h
    simp [from_dict, to_dict, mkEntry, h]

/-- C6: saving a history and loading the resulting file reproduces the same
sequence of entries, with the same four fields in the same order. The
hypothesis that no timestamp is the empty string holds for every entry the
program can construct, because the constructor replaces an empty or missing
timestamp with the current time. -/
theorem C6_save_load_roundtrip (h cur : List Entry) (now : String)
    (hts : ∀ e ∈ h, e.timestamp ≠ "") :
    load_history (some (some (save_history h))) cur now = h := by
  have h1 : load_history (some (some (save_history h))) cur now
      = h.map (fun e => from_dict (to_dict e) now) := by
    simp [load_history, save_history, List.map_map, Function.comp]
  rw [h1, List.map_congr_left (fun e he => from_to_dict e now (hts e he))]
  simp

theorem C6_save_load_roundtrip_witness :
    load_history (some (some (save_history [sampleEntry]))) [] "2025" = [sampleEntry] :=
  C6_save_load_roundtrip [sampleEntry] [] "2025" (by decide)

/-- C1 counterexample: import_history with merge false replaces the history
by the imported entries without trimming, so importing 101 entries leaves the
in-memory history longer than max_history. -/
theorem C1_counterexample :
    maxHistory < (import_history (List.replicate 101 sampleEntry) false []).length := by
  simp [import_history, maxHistory]

/-- C1 amended: after add_entry, clear_history and a merge import the length
is at most max_history unconditionally, and delete_entry preserves the bound;
but a non-merge import sets the history to exactly the imported entries, so
its length is the imported length, which can exceed max_history. -/
theorem C1_length_invariant (h : List Entry) (ui gp tid now : String) (i : Int)
    (imp : List Entry) (hh : h.length ≤ maxHistory) :
    (add_entry ui gp tid now h).length ≤ maxHistory ∧
    (delete_entry i h).length ≤ maxHistory ∧
    clear_history.length ≤ maxHistory ∧
    (import_history imp true h).length ≤ maxHistory ∧
    (import_history imp false h).length = imp.length := by
  refine ⟨?_, ?_, Nat.zero_le _, ?_, rfl⟩
  · rw [add_entry_eq]
    exact trim_length_le _
  · unfold delete_entry
    split
    · rw [List.length_eraseIdx]
      split <;> omega
    · exact hh
  · rw [import_true_eq]
    exact trim_length_le _

theorem C1_length_invariant_witness :
    (add_entry "a" "b" "c" "t" []).length ≤ maxHistory ∧
    (delete_entry 0 []).length ≤ maxHistory ∧
    clear_history.length ≤ maxHistory ∧
    (import_history [sampleEntry] true []).length ≤ maxHistory ∧
    (import_history [sampleEntry] false []).length = [sampleEntry].length :=
  C1_length_invariant [] "a" "b" "c" "t" 0 [sampleEntry] (by decide)

/-- C2 counterexample: with merge false the store is not the imported list
trimmed to max_history; importing 101 entries keeps all 101. -/
theorem C2_counterexample :
    import_history (List.replicate 101 sampleEntry) false [] ≠
      (List.replicate 101 sampleEntry).take maxHistory := by
  intro hEq
  have hLen := congrArg List.length hEq
  simp [import_history, maxHistory] at hLen

/-- C2 amended: import with merge false leaves the store equal to exactly the
imported entries, with no trimming; import with merge true leaves the store
sorted by timestamp descending, of size at most max_history, containing only
entries drawn from the pre-import store and the imported file. -/
theorem C2_import (h imp : List Entry) :
    import_history imp false h = imp ∧
    List.Sorted tsGE (import_history imp true h) ∧
    (import_history imp true h).length ≤ maxHistory ∧
    ∀ e ∈ import_history imp true h, e ∈ h ∨ e ∈ imp := by
  have hs : List.Sorted tsGE (sortByTimestampDesc (h ++ imp)) :=
    List.sorted_insertionSort tsGE (h ++ imp)
  refine ⟨rfl, ?_, ?_, ?_⟩
  · rw [import_true_eq]
    split
    · exact List.Pairwise.sublist (List.take_sublist _ _) hs
    · exact hs
  · rw [import_true_eq]
    exact trim_length_le _
  · intro e he
    rw [import_true_eq] at he
    have hmem : e ∈ sortByTimestampDesc (h ++ imp) := by
      revert he
      split
      · intro he
        exact (List.take_sublist _ _).subset he
      · intro he
        exact he
    have hmem2 : e ∈ h ++ imp := (List.perm_insertionSort tsGE (h ++ imp)).subset hmem
    exact List.mem_append.mp hmem2

theorem C2_import_witness :
    sampleEntry ∈ ([] : List Entry) ∨ sampleEntry ∈ [sampleEntry] :=
  (C2_import [] [sampleEntry]).2.2.2 sampleEntry (by decide)

theorem add_entry_length (ui gp tid now : String) (h : List Entry) :
    (add_entry ui gp tid now h).length = min (h.length + 1) maxHistory := by
  rw [add_entry_eq]
  split
  · rename_i hg
    simp only [List.length_take, List.length_cons, maxHistory] at *
    omega
  · rename_i hg
    simp only [List.length_cons, maxHistory] at *
    omega

theorem add_entry_head (ui gp tid now : String) (h : List Entry) :
    (add_entry ui gp tid now h).head? = some (mkEntry ui gp tid none now) := by
  rw [add_entry_eq]
  split
  · rw [List.head?_take]
    simp [maxHistory]
  · simp

theorem applyAdds_length (calls : List AddCall) (h : List Entry)
    (hh : h.length ≤ maxHistory) :
    (applyAdds calls h).length = min (h.length + calls.length) maxHistory := by
  induction calls generalizing h with
  | nil =>
    simp [applyAdds]
    omega
  | cons c cs ih =>
    have h1 : applyAdds (c :: cs) h
        = applyAdds cs (add_entry c.user_input c.generated_prompt c.template_id c.now h) :=
      rfl
    rw [h1, ih _ (by rw [add_entry_length]; omega), add_entry_length]
    simp
    omega

/-- C5: starting from the empty store, a sequence of add_entry calls leaves a
history of length min(number of calls, max_history), and the entry created by
the most recent call sits at index 0. -/
theorem C5_adds (calls : List AddCall) :
    (applyAdds calls []).length = min calls.length maxHistory ∧
    ∀ c pre, calls = pre ++ [c] → (applyAdds calls []).head? = some (entryOf c) := by
  constructor
  · simpa using applyAdds_length calls [] (by simp)
  · intro c pre hcalls
    subst hcalls
    have h1 : applyAdds (pre ++ [c]) [] =
        add_entry c.user_input c.generated_prompt c.template_id c.now (applyAdds pre []) := by
      simp [applyAdds, List.foldl_append]
    rw [h1, add_entry_head]
    rfl

theorem C5_adds_witness :
    (applyAdds [AddCall.mk "a" "b" "c" "t"] []).head? =
      some (entryOf (AddCall.mk "a" "b" "c" "t")) :=
  (C5_adds [AddCall.mk "a" "b" "c" "t"]).2 (AddCall.mk "a" "b" "c" "t") [] rfl

theorem convTrim_eq_drop (l : List Msg) :
    convTrim l = l.drop (l.length - maxConversationTurns * 2) := by
  unfold convTrim
  split
  · rfl
  · rw [Nat.sub_eq_zero_of_le (by omega), List.drop_zero]

set_option maxRecDepth 4000 in
theorem convTrim_append (a b : List Msg) :
    convTrim (convTrim a ++ b) = convTrim (a ++ b) := by
  have h3 : a.drop (a.length - maxConversationTurns * 2) ++ b
      = (a ++ b).drop (a.length - maxConversationTurns * 2) := by
    rw [List.drop_append_of_le_length]
    omega
  rw [convTrim_eq_drop a, h3, convTrim_eq_drop, convTrim_eq_drop, List.drop_drop]
  congr 1
  simp [List.length_drop, List.length_append]
  omega

theorem appendAll_trim (calls : List (Msg × String)) (s : ConvState) :
    convTrim ((appendAll calls s).history) = convTrim (s.history ++ calls.map Prod.fst) := by
  induction calls generalizing s with
  | nil => simp [appendAll]
  | cons mc rest ih =>
    have h1 : appendAll (mc :: rest) s
        = appendAll rest (add_to_conversation mc.1.role mc.1.content mc.2 s) := rfl
    have h2 : (add_to_conversation mc.1.role mc.1.content mc.2 s).history
        = convTrim (s.history ++ [mc.1]) := rfl
    rw [h1, ih, h2, convTrim_append]
    simp

/-- C4: from any starting state, appending more than max_conversation_turns*2
messages through add_to_conversation and then saving leaves exactly
max_conversation_turns*2 messages in the written file, and those are the most
recently appended messages in their original relative order (the trailing
slice of the appended sequence). -/
theorem C4_conversation (s : ConvState) (calls : List (Msg × String)) (now : String)
    (hk : maxConversationTurns * 2 < calls.length) :
    (save_conversation now (appendAll calls s)).disk
      = some (ConvFile.mk "1.0" now
          ((calls.map Prod.fst).drop (calls.length - maxConversationTurns * 2))) ∧
    ((calls.map Prod.fst).drop (calls.length - maxConversationTurns * 2)).length
      = maxConversationTurns * 2 := by
  constructor
  · have h1 : (save_conversation now (appendAll calls s)).disk
        = some (ConvFile.mk "1.0" now (convTrim ((appendAll calls s).history))) := rfl
    have h2 : (s.history ++ calls.map Prod.fst).drop
          ((s.history ++ calls.map Prod.fst).length - maxConversationTurns * 2)
        = (calls.map Prod.fst).drop (calls.length - maxConversationTurns * 2) := by
      have h3 : (s.history ++ calls.map Prod.fst).length - maxConversationTurns * 2
          = s.history.length + ((calls.map Prod.fst).length - maxConversationTurns * 2) := by
        simp [List.length_append, List.length_map]
        omega
      rw [h3, List.drop_append, List.length_map]
    rw [h1, appendAll_trim, convTrim_eq_drop, h2]
  · rw [List.length_drop, List.length_map]
    omega

theorem C4_conversation_witness :
    (save_conversation "t1" (appendAll (List.replicate 101 sampleCall)
        (ConvState.mk [] none))).disk
      = some (ConvFile.mk "1.0" "t1"
          (((List.replicate 101 sampleCall).map Prod.fst).drop
            ((List.replicate 101 sampleCall).length - maxConversationTurns * 2))) ∧
    (((List.replicate 101 sampleCall).map Prod.fst).drop
        ((List.replicate 101 sampleCall).length - maxConversationTurns * 2)).length
      = maxConversationTurns * 2 :=
  C4_conversation (ConvState.mk [] none) (List.replicate 101 sampleCall) "t1"
    (by simp [maxConversationTurns])

theorem validFrom_mono {n p q : Nat} {l : List Correction} (hq : q ≤ p)
    (h : ValidFrom n p l) : ValidFrom n q l := by
  cases l with
  | nil => trivial
  | cons c rest =>
    simp only [ValidFrom] at h ⊢
    obtain ⟨h1, h2, h3, h4⟩ := h
    exact ⟨le_trans hq h1, h2, h3, h4⟩

theorem validFrom_of (n : Nat) (l : List Correction) :
    ∀ (p : Nat), l.Pairwise (fun a b => a.start ≤ b.start) → l.Pairwise Disj →
    (∀ c ∈ l, c.start < c.stop ∧ c.stop ≤ n) → (∀ c ∈ l, p ≤ c.start) →
    ValidFrom n p l := by
  induction l with
  | nil =>
    intro p _ _ _ _
    trivial
  | cons c rest ih =>
    intro p hs hd hb hp
    rw [List.pairwise_cons] at hs hd
    simp only [ValidFrom]
    refine ⟨hp c (List.mem_cons_self c rest), (hb c (List.mem_cons_self c rest)).1,
      (hb c (List.mem_cons_self c rest)).2, ?_⟩
    apply ih c.stop hs.2 hd.2 (fun d hdm => hb d (List.mem_cons_of_mem c hdm))
    intro d hdm
    have hsd := hs.1 d hdm
    have hdd : c.stop ≤ d.start ∨ d.stop ≤ c.start := hd.1 d hdm
    have hbd := hb d (List.mem_cons_of_mem c hdm)
    rcases hdd with h | h
    · exact h
    · exfalso
      have := hbd.1
      omega

theorem specSplice_take (t : List Char) (l : List Correction) (p s : Nat)
    (hv : ValidFrom t.length p l) (hsp : s ≤ p) (hst : s ≤ t.length) :
    (specSplice t 0 l).take s = t.take s := by
  cases l with
  | nil => simp [specSplice]
  | cons d r2 =>
    simp only [ValidFrom] at hv
    obtain ⟨h1, h2, h3, _⟩ := hv
    have hsd : s ≤ d.start := le_trans hsp h1
    simp only [specSplice, List.drop_zero, Nat.sub_zero]
    rw [List.take_append_of_le_length, List.take_append_of_le_length, List.take_take]
    · congr 1
      omega
    · rw [List.length_take]
      omega
    · simp [List.length_append, List.length_take]
      omega

theorem specSplice_drop (t : List Char) (l : List Correction) (p e : Nat)
    (hv : ValidFrom t.length p l) (hep : e ≤ p) (het : e ≤ t.length) :
    (specSplice t 0 l).drop e = specSplice t e l := by
  cases l with
  | nil => simp [specSplice]
  | cons d r2 =>
    simp only [ValidFrom] at hv
    obtain ⟨h1, h2, h3, _⟩ := hv
    have hed : e ≤ d.start := le_trans hep h1
    simp only [specSplice, List.drop_zero, Nat.sub_zero]
    rw [List.drop_append_of_le_length, List.drop_append_of_le_length, List.drop_take]
    · rw [List.length_take]
      omega
    · simp [List.length_append, List.length_take]
      omega

theorem foldr_applyOne (t : List Char) (l : List Correction) :
    ValidFrom t.length 0 l →
    l.foldr (fun c acc => applyOne acc c) t = specSplice t 0 l := by
  induction l with
  | nil =>
    intro _
    simp [specSplice]
  | cons c rest ih =>
    intro hv
    simp only [ValidFrom] at hv
    obtain ⟨_, h2, h3, h4⟩ := hv
    have hv0 : ValidFrom t.length 0 rest := validFrom_mono (Nat.zero_le _) h4
    rw [List.foldr_cons, ih hv0]
    simp only [applyOne]
    rw [specSplice_take t rest c.stop c.start h4 (le_of_lt h2) (le_trans (le_of_lt h2) h3),
      specSplice_drop t rest c.stop c.stop h4 (le_refl c.stop) h3]
    simp [specSplice]

theorem apply_corrections_eq (t : List Char) (cs : List Correction)
    (hb : ∀ c ∈ cs, c.start < c.stop ∧ c.stop ≤ t.length) (hd : cs.Pairwise Disj) :
    apply_corrections t cs = specSplice t 0 ((sortCorrections cs).reverse) := by
  have hsorted : List.Sorted startGE (sortCorrections cs) :=
    List.sorted_insertionSort startGE cs
  have hperm : (sortCorrections cs).Perm cs := List.perm_insertionSort startGE cs
  have h1 : apply_corrections t cs
      = ((sortCorrections cs).reverse).foldr (fun c acc => applyOne acc c) t := by
    rw [apply_corrections]
    exact (List.foldr_reverse _ _ _).symm
  rw [h1]
  apply foldr_applyOne
  apply validFrom_of
  · exact List.pairwise_reverse.mpr hsorted
  · have hd2 : (sortCorrections cs).Pairwise Disj :=
      (hperm.pairwise_iff (fun h => h.symm)).mpr hd
    exact List.pairwise_reverse.mpr (hd2.imp (fun h => h.symm))
  · intro c hc
    exact hb c (hperm.subset (List.mem_reverse.mp hc))
  · intro c hc
    exact Nat.zero_le _

/-- C3: apply_corrections sorts by start descending and applies each
correction by slicing; on the text "The qick fox" the single correction of
span 4 to 8 with replacement "quick" yields "The quick fox"; on the text
"a bb ccc" the corrections over spans 2 to 4 and 5 to 8 yield
"a BEE SEE"; and for every list of pairwise non-overlapping, in-bounds,
nonempty-span corrections the descending-order application replaces every
span correctly, producing the splice of all replacements into the original
text taken in ascending span order. -/
theorem C3_corrections :
    apply_corrections "The qick fox".data [Correction.mk 4 8 "quick".data]
      = "The quick fox".data ∧
    apply_corrections "a bb ccc".data
        [Correction.mk 2 4 "BEE".data, Correction.mk 5 8 "SEE".data]
      = "a BEE SEE".data ∧
    ∀ (t : List Char) (cs : List Correction),
      (∀ c ∈ cs, c.start < c.stop ∧ c.stop ≤ t.length) → cs.Pairwise Disj →
      apply_corrections t cs = specSplice t 0 ((sortCorrections cs).reverse) :=
  ⟨by decide, by decide, apply_corrections_eq⟩

theorem C3_corrections_witness :
    apply_corrections "a bb ccc".data
        [Correction.mk 2 4 "BEE".data, Correction.mk 5 8 "SEE".data]
      = specSplice "a bb ccc".data 0
          ((sortCorrections
            [Correction.mk 2 4 "BEE".data, Correction.mk 5 8 "SEE".data]).reverse) :=
  C3_corrections.2.2 "a bb ccc".data
    [Correction.mk 2 4 "BEE".data, Correction.mk 5 8 "SEE".data]
    (by decide) (by decide)

/-- C9 counterexample: the word qqq is a token of length 3 whose lowercase
form the dictionary does not contain, yet find_spelling_errors does not flag
it when the suggestion engine returns no candidates, because the source only
appends an error when the candidate set is non-empty. -/
theorem C9_counterexample :
    scanWords "qqq".data 0 false = [("qqq".data, 0, 3)] ∧
    3 ≤ ("qqq".data).length ∧
    find_spelling_errors (fun _ => false) (fun _ => []) "qqq".data = [] := by
  refine ⟨by decide, by decide, by decide⟩

/-- C9 amended: no reported error concerns a word of length at most 2 and
every reported error carries at most 5 suggestions; and every token of
length at least 3 whose lowercase form is not in the dictionary is flagged
provided the suggestion engine returns at least one candidate for it. -/
theorem C9_spelling (dict : List Char → Bool) (cand : List Char → List (List Char))
    (text : List Char) :
    (∀ err ∈ find_spelling_errors dict cand text,
      3 ≤ err.word.length ∧ err.suggestions.length ≤ 5) ∧
    (∀ w s e, (w, s, e) ∈ scanWords text 0 false → 3 ≤ w.length →
      dict (lowerL w) = false → cand w ≠ [] →
      ∃ err ∈ find_spelling_errors dict cand text,
        err.word = w ∧ err.start = s ∧ err.suggestions = (cand w).take 5) := by
  constructor
  · intro err herr
    rw [find_spelling_errors, List.mem_filterMap] at herr
    obtain ⟨t, htmem, hft⟩ := herr
    by_cases h2 : t.1.length ≤ 2
    · simp [h2] at hft
    · by_cases hdict : dict (lowerL t.1)
      · simp [h2, hdict] at hft
      · rcases hcand : cand t.1 with _ | ⟨s0, rest⟩
        · simp [h2, hdict, hcand] at hft
        · simp only [h2, hdict, hcand, if_neg, if_false, Bool.false_eq_true,
            not_false_eq_true, if_true, Option.some.injEq] at hft
          subst hft
          constructor
          · show 3 ≤ t.1.length
            omega
          · show ((s0 :: rest).take 5).length ≤ 5
            simp [List.length_take]
  · intro w s e hmem h3 hdict hcand
    refine ⟨SpellError.mk w s e ((cand w).take 5) (get_word_context text s e),
      ?_, rfl, rfl, rfl⟩
    rw [find_spelling_errors, List.mem_filterMap]
    refine ⟨(w, s, e), hmem, ?_⟩
    have h2 : ¬ (w.length ≤ 2) := by omega
    rcases hc : cand w with _ | ⟨s0, rest⟩
    · exact absurd hc hcand
    · simp [h2, hdict, hc]

theorem C9_spelling_witness :
    ∃ err ∈ find_spelling_errors (fun _ => false) (fun _ => [['x']]) "qqq".data,
      err.word = "qqq".data ∧ err.start = 0 ∧
      err.suggestions = ((fun (_ : List Char) => [['x']]) "qqq".data).take 5 :=
  (C9_spelling (fun _ => false) (fun _ => [['x']]) "qqq".data).2 "qqq".data 0 3
    (by decide) (by decide) rfl (by decide)

end VMS
